import Mathlib

/-!
Shallow embedding of the cross-sectional momentum trading strategy
(`strategy1.py`) and its performance analytics (`backtest_analysis.py`),
with theorems settling the specification claims about them.

Prices, returns and portfolio values are modelled as rationals (exact
arithmetic); Python lists become Lean lists, the event-handler object
becomes an explicit state-passing step function, and fallible lookups
return `Option`/`Except`.
-/

namespace MomentumStrategy

/-! ## Signal computation (strategy1.py, lines 74-87) -/

/-- Failure modes of a signal computation: the insufficient-history guard
(`len(prices) < lookback`, strategy1.py line 76) and an out-of-range list
index (a Python IndexError). -/
inductive SignalError where
  | insufficientHistory
  | indexError
deriving DecidableEq, Repr

/-- Python negative indexing: the value of the expression with index minus k
applied to list l, i.e. the k-th element from the end; index minus zero is the
head, and an out-of-range access fails. -/
def pyNegGet (l : List ℚ) (k : ℕ) : Option ℚ :=
  if k = 0 then l[0]?
  else if l.length < k then none
  else l[l.length - k]?

/-- Momentum of a price sequence over a lookback window, from strategy1.py:
the guard at line 76 (skip when the history is shorter than the lookback)
followed by the formula at line 86,
momentum = prices[-1] / prices[-lookback] - 1. -/
def momentum (prices : List ℚ) (lookback : ℕ) : Except SignalError ℚ :=
  if prices.length < lookback then .error .insufficientHistory
  else
    match pyNegGet prices 1, pyNegGet prices lookback with
    | some lastP, some baseP => .ok (lastP / baseP - 1)
    | _, _ => .error .indexError

/-! ## Cross-sectional ranking (strategy1.py, lines 89-98) -/

/-- Comparison used by the ranking sort: descending by momentum score.
Sorting stably by this relation is the meaning of Python
sorted(momentum_scores.items(), key=lambda item: item[1], reverse=True). -/
def rankKey (a b : String × ℚ) : Prop := b.2 ≤ a.2

instance : DecidableRel rankKey := fun a b => inferInstanceAs (Decidable (b.2 ≤ a.2))

instance : IsTotal (String × ℚ) rankKey := ⟨fun a b => le_total b.2 a.2⟩

instance : IsTrans (String × ℚ) rankKey := ⟨fun _ _ _ h h2 => le_trans h2 h⟩

/-- strategy1.py line 91: stable sort of the (instrument, score) pairs by
descending momentum score. -/
def rankInstruments (pairs : List (String × ℚ)) : List (String × ℚ) :=
  List.insertionSort rankKey pairs

/-- Python slice l[-K:]: the last K elements, the whole list when K = 0
(slice from index minus zero) or when K exceeds the length. -/
def pySliceLast (K : ℕ) (l : List α) : List α :=
  if K = 0 then l else l.drop (l.length - K)

/-- The ranked (instrument, score) list for a universe and a score
assignment: strategy1.py lines 81-91 build momentum_scores by iterating the
universe in order, then sort. -/
def rankedOf (univ : List String) (scores : String → ℚ) : List (String × ℚ) :=
  rankInstruments (univ.map fun i => (i, scores i))

/-- strategy1.py line 94: longs = first hold_N_assets of the ranked list. -/
def longsOf (univ : List String) (scores : String → ℚ) (K : ℕ) : List String :=
  ((rankedOf univ scores).take K).map Prod.fst

/-- strategy1.py line 95: shorts = ranked_instruments[-hold_N_assets:]. -/
def shortsOf (univ : List String) (scores : String → ℚ) (K : ℕ) : List String :=
  (pySliceLast K (rankedOf univ scores)).map Prod.fst

/-- strategy1.py line 98: flats = universe members in neither longs nor
shorts, in universe order. -/
def flatsOf (univ : List String) (scores : String → ℚ) (K : ℕ) : List String :=
  univ.filter fun i =>
    decide (i ∉ longsOf univ scores K ∧ i ∉ shortsOf univ scores K)

/-! ## Trade execution (strategy1.py, lines 104-129) -/

/-- A TARGET_SHARES order as emitted by evt.sendOrder: the instrument and
the signed absolute target quantity. -/
structure Order where
  instrument : String
  target : ℚ
deriving DecidableEq, Repr

/-- strategy1.py lines 104-129: equal-weight execution. If the combined
long/short set is empty nothing is emitted; otherwise capital per position
is portfolio_value / num_positions and one target-shares order is emitted
per flat (target 0), long (capital/price) and short (negated) instrument,
in that emission order. -/
def executeTrades (longs shorts flats : List String) (lastPrice : String → ℚ)
    (portfolio_value : ℚ) : List Order :=
  let num_positions := longs.length + shorts.length
  if num_positions = 0 then []
  else
    let capital_per_position := portfolio_value / (num_positions : ℚ)
    flats.map (fun i => ⟨i, 0⟩)
      ++ longs.map (fun i => ⟨i, capital_per_position / lastPrice i⟩)
      ++ shorts.map (fun i => ⟨i, -(capital_per_position / lastPrice i)⟩)

/-- The full rebalance decision (strategy1.py lines 80-129) given the
momentum scores, last prices and portfolio value. -/
def rebalanceOrders (univ : List String) (scores : String → ℚ) (K : ℕ)
    (lastPrice : String → ℚ) (portfolio_value : ℚ) : List Order :=
  executeTrades (longsOf univ scores K) (shortsOf univ scores K)
    (flatsOf univ scores K) lastPrice portfolio_value

/-! ## The event-driven engine (strategy1.py, AlgoEvent) -/

/-- The strategy parameters set in AlgoEvent.__init__ (strategy1.py lines
4-21): the trading universe, the momentum lookback, the rebalancing
frequency and the long/short hold count. -/
structure StratConfig where
  instrument_list : List String
  lookback_period : ℕ
  rebalance_period : ℕ
  hold_N_assets : ℕ

/-- The mutable engine state: the tick counter and the per-instrument price
history dictionary (keys are the universe members, initialized in start()). -/
structure StratState where
  rebalance_counter : ℕ
  historical_data : String → List ℚ

/-- A market-data event: instrument identifier and close price. -/
structure Tick where
  instrument : String
  close : ℚ

/-- What one call of the market-data handler produces: the successor state,
the emitted orders, and whether the rebalance cycle fired (the counter
reached the rebalance period and was reset). -/
structure StepResult where
  state : StratState
  orders : List Order
  fired : Bool

/-- The state after start() (strategy1.py lines 23-34): counter 0 and an
empty price list for every instrument. -/
def initState : StratState := ⟨0, fun _ => []⟩

/-- strategy1.py lines 56-58: append the close price to the tick
instrument's history when the instrument is a universe member (a key of
the historical_data dictionary), else leave every history unchanged. -/
def appendTick (cfg : StratConfig) (h : String → List ℚ) (md : Tick) :
    String → List ℚ :=
  if md.instrument ∈ cfg.instrument_list then
    fun i => if i = md.instrument then h i ++ [md.close] else h i
  else h

/-- One call of AlgoEvent.on_marketdatafeed (strategy1.py lines 50-129).
The portfolio value delivered by the external platform
(evt.getPortfolio().getPortfolioValue()) is passed in as pv. Steps: append
the close to the instrument's history when it is in the universe; advance
the counter only on a tick of the first universe instrument; return if the
counter has not reached the rebalance period; otherwise reset the counter,
skip the cycle if any instrument's history is shorter than the lookback,
and otherwise emit the rebalance orders. -/
def on_marketdatafeed (cfg : StratConfig) (pv : ℚ) (s : StratState)
    (md : Tick) : StepResult :=
  let hist : String → List ℚ := appendTick cfg s.historical_data md
  let counter : ℕ :=
    if cfg.instrument_list.head? = some md.instrument then
      s.rebalance_counter + 1
    else s.rebalance_counter
  if counter < cfg.rebalance_period then ⟨⟨counter, hist⟩, [], false⟩
  else if cfg.instrument_list.any (fun i => (hist i).length < cfg.lookback_period) then
    ⟨⟨0, hist⟩, [], true⟩
  else
    let scores : String → ℚ := fun i =>
      ((momentum (hist i) cfg.lookback_period).toOption).getD 0
    let lastPrice : String → ℚ := fun i => (hist i).getLastD 0
    ⟨⟨0, hist⟩,
      rebalanceOrders cfg.instrument_list scores cfg.hold_N_assets lastPrice pv,
      true⟩

/-- Feed a list of ticks through the handler in order, returning the final
state and the per-tick fired flags. -/
def runTrace (cfg : StratConfig) (pv : ℚ) (s : StratState) :
    List Tick → StratState × List Bool
  | [] => (s, [])
  | md :: rest =>
    let r := on_marketdatafeed cfg pv s md
    let rec' := runTrace cfg pv r.state rest
    (rec'.1, r.fired :: rec'.2)

/-- Whether a tick belongs to the designated reference instrument (the
first member of the universe, strategy1.py line 63). -/
def isRefTick (cfg : StratConfig) (md : Tick) : Bool :=
  cfg.instrument_list.head? = some md.instrument

/-- Number of reference-instrument ticks in a trace. -/
def refCount (cfg : StratConfig) (ts : List Tick) : ℕ :=
  (ts.filter (isRefTick cfg)).length

/-- Claim-side rendering of the trigger schedule: starting from a running
count rc of previously seen reference ticks, a cycle fires exactly on those
reference ticks whose cumulative reference count is a multiple of the
rebalance period. -/
def expectedFires (cfg : StratConfig) : List Tick → ℕ → List Bool
  | [], _ => []
  | md :: rest, rc =>
    let rc' := if isRefTick cfg md then rc + 1 else rc
    (isRefTick cfg md && decide (rc' % cfg.rebalance_period = 0))
      :: expectedFires cfg rest rc'

/-! ## Configuration validation -/

/-- The configuration error taxonomy of the spec (section 7). -/
inductive ConfigError where
  | invalidConfiguration
deriving DecidableEq, Repr

/-- Modelled from the spec: construction-time validation of the engine
configuration is absent from src (AlgoEvent.__init__ in strategy1.py
hardcodes a valid 7-instrument universe with hold count 2 and performs no
check); the spec (sections 4.4 and 7) requires construction to fail with
InvalidConfiguration when 2K exceeds the universe size, and also when the
lookback or rebalance period is non-positive. -/
def mkEngine (univ : List String) (lookback_period rebalance_period K : ℕ) :
    Except ConfigError StratConfig :=
  if 2 * K > univ.length ∨ lookback_period = 0 ∨ rebalance_period = 0 then
    .error .invalidConfiguration
  else .ok ⟨univ, lookback_period, rebalance_period, K⟩

/-! ## Performance analytics (backtest_analysis.py) -/

/-- pandas cumprod with running accumulator acc: element t is
acc times the product of the first t+1 inputs. -/
def cumprodAux (acc : ℚ) : List ℚ → List ℚ
  | [] => []
  | x :: xs => (acc * x) :: cumprodAux (acc * x) xs

/-- backtest_analysis.py line 87: cumulative = (1 + returns).cumprod(). -/
def cumulativeReturns (returns : List ℚ) : List ℚ :=
  cumprodAux 1 (returns.map (1 + ·))

/-- pandas expanding().max() with seed m: element t is the maximum of m and
the first t+1 inputs. -/
def expandingMaxAux (m : ℚ) : List ℚ → List ℚ
  | [] => []
  | x :: xs => max m x :: expandingMaxAux (max m x) xs

/-- backtest_analysis.py line 88: running_max = cumulative.expanding().max(). -/
def expandingMax : List ℚ → List ℚ
  | [] => []
  | x :: xs => x :: expandingMaxAux x xs

/-- pandas Series.min() over a series; 0 is a junk value for the empty
series (pandas returns NaN there; no claim touches that case). -/
def seriesMin : List ℚ → ℚ
  | [] => 0
  | x :: xs => xs.foldl min x

/-- StrategyBacktester.calculate_max_drawdown (backtest_analysis.py lines
85-90): drawdown = (cumulative - running_max) / running_max, elementwise,
and the result is its minimum. -/
def calculate_max_drawdown (returns : List ℚ) : ℚ :=
  let cumulative := cumulativeReturns returns
  let running_max := expandingMax cumulative
  seriesMin (List.zipWith (fun c m => (c - m) / m) cumulative running_max)

/-- pandas Series.mean(): sum divided by length. -/
def seriesMean (returns : List ℚ) : ℚ := returns.sum / (returns.length : ℚ)

/-- The 'Calmar Ratio' entry of calculate_performance_metrics
(backtest_analysis.py line 75):
(returns.mean() * 252) / abs(max_drawdown) when the max drawdown is
nonzero, else 0. -/
def calmarRatio (returns : List ℚ) : ℚ :=
  if calculate_max_drawdown returns ≠ 0 then
    seriesMean returns * 252 / |calculate_max_drawdown returns|
  else 0

/-- The 'Annualized Return' entry of calculate_performance_metrics
(backtest_analysis.py line 67), (returns + 1).prod() ** (252 / n) - 1,
stated at an integer exponent e (used at e = 252 / n when n divides 252). -/
def annualizedReturnAt (returns : List ℚ) (e : ℕ) : ℚ :=
  (returns.map (· + 1)).prod ^ e - 1

/-- The Calmar ratio as the spec words it: annualized return divided by the
absolute max drawdown (0 when the max drawdown is 0), stated at an integer
annualization exponent e = 252 / n. Kept for comparison with calmarRatio. -/
def calmarClaimedAt (returns : List ℚ) (e : ℕ) : ℚ :=
  if calculate_max_drawdown returns ≠ 0 then
    annualizedReturnAt returns e / |calculate_max_drawdown returns|
  else 0

/-- The momentum scores of the spec scenario: universe [A,B,C,D] with
A: 0.10, B: -0.05, C: 0.02, D: -0.10. -/
def scenarioScores : String → ℚ := fun i =>
  if i = "A" then 1/10
  else if i = "B" then -(5/100)
  else if i = "C" then 2/100
  else if i = "D" then -(1/10)
  else 0

/-! ## Theorems -/

theorem pyNegGet_eq_getD (l : List ℚ) (k : ℕ) (h1 : 1 ≤ k) (h2 : k ≤ l.length) :
    pyNegGet l k = some (l.getD (l.length - k) 0) := by
  have hlt : l.length - k < l.length := by omega
  rw [pyNegGet, if_neg (by omega), if_neg (by omega),
    List.getElem?_eq_getElem hlt, List.getD_eq_getElem l 0 hlt]

/-- C1: momentum fails with InsufficientHistory exactly when the price
sequence has fewer than lookback elements; otherwise (for a positive
lookback and positive prices, the domain the code runs on) it returns the
last price divided by the price lookback periods back, minus one. -/
theorem momentum_spec (prices : List ℚ) (lookback : ℕ) :
    (momentum prices lookback = .error .insufficientHistory ↔
      prices.length < lookback)
    ∧ (1 ≤ lookback → lookback ≤ prices.length → (∀ p ∈ prices, 0 < p) →
        momentum prices lookback =
          .ok (prices.getD (prices.length - 1) 0
            / prices.getD (prices.length - lookback) 0 - 1)) := by
  constructor
  · by_cases h : prices.length < lookback
    · simp [momentum, h]
    · rw [momentum, if_neg h]
      cases h1 : pyNegGet prices 1 <;> cases h2 : pyNegGet prices lookback <;>
        simp [h]
  · intro hk hlen _
    rw [momentum, if_neg (by omega),
      pyNegGet_eq_getD prices 1 le_rfl (by omega),
      pyNegGet_eq_getD prices lookback hk hlen]

theorem momentum_spec_witness :
    (momentum [(1:ℚ), 2, 4] 2 = .error .insufficientHistory ↔
      ([(1:ℚ), 2, 4]).length < 2)
    ∧ momentum [(1:ℚ), 2, 4] 2
        = .ok (([(1:ℚ), 2, 4]).getD (([(1:ℚ), 2, 4]).length - 1) 0
            / ([(1:ℚ), 2, 4]).getD (([(1:ℚ), 2, 4]).length - 2) 0 - 1) :=
  ⟨(momentum_spec [1, 2, 4] 2).1,
    (momentum_spec [1, 2, 4] 2).2 (by norm_num) (by norm_num) (by
      intro p hp
      simp only [List.mem_cons, List.not_mem_nil, or_false] at hp
      rcases hp with rfl | rfl | rfl <;> norm_num)⟩

/-- C4: the (spec-modelled) engine constructor fails with
InvalidConfiguration whenever twice the hold count exceeds the universe
size, and construction succeeds only when 2K is at most the universe
size. -/
theorem mkEngine_spec (univ : List String)
    (lookback_period rebalance_period K : ℕ) :
    (2 * K > univ.length →
      mkEngine univ lookback_period rebalance_period K
        = .error .invalidConfiguration)
    ∧ (∀ cfg, mkEngine univ lookback_period rebalance_period K = .ok cfg →
        2 * K ≤ univ.length) := by
  constructor
  · intro h
    rw [mkEngine, if_pos (Or.inl h)]
  · intro cfg h
    by_contra hcon
    rw [mkEngine, if_pos (Or.inl (by omega))] at h
    exact absurd h (by simp)

theorem mkEngine_spec_witness :
    mkEngine ["SPY"] 120 20 1 = .error .invalidConfiguration :=
  (mkEngine_spec ["SPY"] 120 20 1).1 (by simp)

/-- C5 counterexample: on the return series [1, -1/2] the code's Calmar
ratio is mean(r) * 252 / |maxdd| = 126, while the spec's formula
(annualized return over |maxdd|, with annualized return
(prod(1+r))^(252/n) - 1 and 252/n = 126) gives 0. -/
theorem calmar_vs_spec_counterexample :
    calculate_max_drawdown [1, -(1/2)] = -(1/2)
    ∧ calmarRatio [1, -(1/2)] = 126
    ∧ calmarClaimedAt [1, -(1/2)] (252 / 2) = 0
    ∧ (126 : ℚ) ≠ 0 := by
  norm_num [calculate_max_drawdown, cumulativeReturns, cumprodAux,
    expandingMax, expandingMaxAux, seriesMin, calmarRatio, seriesMean,
    calmarClaimedAt, annualizedReturnAt, List.zipWith, List.foldl, min_def,
    abs, max_def]

/-- C5 amended: the code's Calmar ratio equals the arithmetically
annualized mean return, mean(r) * 252, divided by the absolute max
drawdown when the max drawdown is nonzero, and 0 when it is zero. -/
theorem calmar_code_formula (returns : List ℚ) (h : returns ≠ []) :
    (calculate_max_drawdown returns ≠ 0 →
      calmarRatio returns
        = returns.sum / (returns.length : ℚ) * 252
            / |calculate_max_drawdown returns|)
    ∧ (calculate_max_drawdown returns = 0 → calmarRatio returns = 0) := by
  constructor
  · intro hmdd
    simp [calmarRatio, hmdd, seriesMean]
  · intro hmdd
    simp [calmarRatio, hmdd]

theorem calmar_code_formula_witness :
    calmarRatio [(1:ℚ), -(1/2)]
      = ([(1:ℚ), -(1/2)]).sum / ((([(1:ℚ), -(1/2)]).length : ℕ) : ℚ) * 252
          / |calculate_max_drawdown [(1:ℚ), -(1/2)]| :=
  (calmar_code_formula [1, -(1/2)] (by simp)).1 (by
    norm_num [calculate_max_drawdown, cumulativeReturns, cumprodAux,
      expandingMax, expandingMaxAux, seriesMin, List.zipWith, List.foldl,
      min_def])

/-- C6 counterexample: on the return series [-2, 1/2] the computed max
drawdown is 0, yet the cumulative-return path [-1, -3/2] is strictly
decreasing. -/
theorem max_drawdown_counterexample :
    calculate_max_drawdown [-2, 1/2] = 0
    ∧ ¬ List.Chain' (· ≤ ·) (cumulativeReturns [-2, 1/2]) := by
  constructor
  · norm_num [calculate_max_drawdown, cumulativeReturns, cumprodAux,
      expandingMax, expandingMaxAux, seriesMin, List.zipWith, List.foldl,
      min_def]
  · norm_num [cumulativeReturns, cumprodAux, List.chain'_cons,
      List.chain'_singleton]

theorem foldl_min_le : ∀ (l : List ℚ) (a : ℚ), l.foldl min a ≤ a
  | [], _ => le_rfl
  | x :: xs, a => le_trans (foldl_min_le xs (min a x)) (min_le_left a x)

theorem foldl_min_le_mem :
    ∀ (l : List ℚ) (a x : ℚ), x ∈ l → l.foldl min a ≤ x
  | y :: ys, a, x, h => by
    rcases List.mem_cons.mp h with rfl | hx
    · exact le_trans (foldl_min_le ys (min a x)) (min_le_right a x)
    · exact foldl_min_le_mem ys (min a y) x hx

theorem seriesMin_le_of_mem {l : List ℚ} {x : ℚ} (hx : x ∈ l) :
    seriesMin l ≤ x := by
  cases l with
  | nil => exact absurd hx (List.not_mem_nil x)
  | cons y ys =>
    rcases List.mem_cons.mp hx with rfl | h
    · exact foldl_min_le ys x
    · exact foldl_min_le_mem ys y x h

theorem dd_neg_of_not_chain :
    ∀ (xs : List ℚ) (m prev : ℚ), 0 < m → prev ≤ m →
      ¬ List.Chain (· ≤ ·) prev xs →
      ∃ d ∈ List.zipWith (fun c mm => (c - mm) / mm) xs (expandingMaxAux m xs),
        d < 0 := by
  intro xs
  induction xs with
  | nil => exact fun m prev _ _ hchain => absurd List.Chain.nil hchain
  | cons x xs ih =>
    intro m prev hm hprev hchain
    by_cases hx : prev ≤ x
    · have hcx : ¬ List.Chain (· ≤ ·) x xs :=
        fun hc => hchain (List.Chain.cons hx hc)
      obtain ⟨d, hd, hdneg⟩ :=
        ih (max m x) x (lt_of_lt_of_le hm (le_max_left m x))
          (le_max_right m x) hcx
      exact ⟨d, by
        simp only [expandingMaxAux, List.zipWith]
        exact List.mem_cons_of_mem _ hd, hdneg⟩
    · refine ⟨(x - max m x) / max m x, ?_, ?_⟩
      · simp only [expandingMaxAux, List.zipWith]
        exact List.mem_cons_self _ _
      · apply div_neg_of_neg_of_pos
        · have : x < m := lt_of_lt_of_le (not_le.mp hx) hprev
          have := le_max_left m x
          linarith
        · exact lt_of_lt_of_le hm (le_max_left m x)

/-- C6 amended: the computed max drawdown of a nonempty return series is
always at most 0; and when every period return exceeds -1 (a positive
price path, the domain the metric is meant for) it equals 0 only if the
cumulative-return path is monotonically non-decreasing. Without that
restriction the claim fails (see the counterexample). -/
theorem max_drawdown_spec (returns : List ℚ) (h : returns ≠ []) :
    calculate_max_drawdown returns ≤ 0
    ∧ ((∀ r ∈ returns, -1 < r) → calculate_max_drawdown returns = 0 →
        List.Chain' (· ≤ ·) (cumulativeReturns returns)) := by
  obtain ⟨r, rs, rfl⟩ := List.exists_cons_of_ne_nil h
  have hdd : calculate_max_drawdown (r :: rs)
      = seriesMin ((1 * (1 + r) - 1 * (1 + r)) / (1 * (1 + r))
          :: List.zipWith (fun c mm => (c - mm) / mm)
              (cumprodAux (1 * (1 + r)) (rs.map (1 + ·)))
              (expandingMaxAux (1 * (1 + r))
                (cumprodAux (1 * (1 + r)) (rs.map (1 + ·))))) := rfl
  have hzero0 : (1 * (1 + r) - 1 * (1 + r)) / (1 * (1 + r)) = 0 := by
    rw [sub_self, zero_div]
  constructor
  · rw [hdd, hzero0]
    exact seriesMin_le_of_mem (List.mem_cons_self _ _)
  · intro hall hzero
    show List.Chain (· ≤ ·) (1 * (1 + r))
      (cumprodAux (1 * (1 + r)) (rs.map (1 + ·)))
    by_contra hnc
    have hc0 : 0 < 1 * (1 + r) := by
      have := hall r (List.mem_cons_self _ _)
      rw [one_mul]
      linarith
    obtain ⟨d, hd, hneg⟩ := dd_neg_of_not_chain _ _ _ hc0 le_rfl hnc
    have hle : calculate_max_drawdown (r :: rs) ≤ d := by
      rw [hdd, hzero0]
      exact seriesMin_le_of_mem (List.mem_cons_of_mem _ hd)
    rw [hzero] at hle
    linarith

theorem filter_orderedInsert_rank (q : ℚ) (a : String × ℚ) :
    ∀ l : List (String × ℚ),
      (List.orderedInsert rankKey a l).filter (fun p => decide (p.2 = q))
        = if a.2 = q then a :: l.filter (fun p => decide (p.2 = q))
          else l.filter (fun p => decide (p.2 = q))
  | [] => by
    by_cases ha : a.2 = q <;> simp [List.orderedInsert, ha]
  | b :: l => by
    rw [List.orderedInsert]
    by_cases hab : rankKey a b
    · rw [if_pos hab]
      by_cases ha : a.2 = q <;> simp [List.filter_cons, ha]
    · rw [if_neg hab]
      have hlt : a.2 < b.2 := lt_of_not_le hab
      by_cases hb : b.2 = q
      · have ha : ¬ a.2 = q := fun ha => by rw [ha, hb] at hlt; exact lt_irrefl q hlt
        simp [List.filter_cons, hb, ha, filter_orderedInsert_rank q a l]
      · by_cases ha : a.2 = q <;>
          simp [List.filter_cons, hb, ha, filter_orderedInsert_rank q a l]

theorem filter_insertionSort_rank (q : ℚ) :
    ∀ l : List (String × ℚ),
      (List.insertionSort rankKey l).filter (fun p => decide (p.2 = q))
        = l.filter (fun p => decide (p.2 = q))
  | [] => rfl
  | a :: l => by
    rw [List.insertionSort, filter_orderedInsert_rank q a _,
      filter_insertionSort_rank q l]
    by_cases ha : a.2 = q <;> simp [List.filter_cons, ha]

theorem scenarioScores_A : scenarioScores "A" = 1/10 := by simp [scenarioScores]

theorem scenarioScores_B : scenarioScores "B" = -(5/100) := by
  simp [scenarioScores]

theorem scenarioScores_C : scenarioScores "C" = 2/100 := by
  simp [scenarioScores]

theorem scenarioScores_D : scenarioScores "D" = -(1/10) := by
  simp [scenarioScores]

theorem scenario_ranked : rankedOf ["A", "B", "C", "D"] scenarioScores
    = [("A", 1/10), ("C", 2/100), ("B", -(5/100)), ("D", -(1/10))] := by
  simp only [rankedOf, List.map_cons, List.map_nil, scenarioScores_A,
    scenarioScores_B, scenarioScores_C, scenarioScores_D]
  norm_num [rankInstruments, List.insertionSort, List.orderedInsert, rankKey]

theorem scenario_longs : longsOf ["A", "B", "C", "D"] scenarioScores 1 = ["A"] := by
  simp [longsOf, scenario_ranked]

theorem scenario_shorts : shortsOf ["A", "B", "C", "D"] scenarioScores 1 = ["D"] := by
  simp [shortsOf, pySliceLast, scenario_ranked]

theorem scenario_flats :
    flatsOf ["A", "B", "C", "D"] scenarioScores 1 = ["B", "C"] := by
  simp [flatsOf, scenario_longs, scenario_shorts, List.filter_cons]

/-- C2: the ranking is a permutation of the (instrument, score) pairs taken
in universe order, sorted so that momentum scores are descending, and for
every score value the equal-scored pairs keep their original universe
order (the stable tie-break); on the spec scenario with universe
[A,B,C,D], K = 1 and scores A: 0.10, B: -0.05, C: 0.02, D: -0.10 the
partition is longs = [A], shorts = [D], flats = [B, C]. -/
theorem ranking_spec (univ : List String) (scores : String → ℚ) (q : ℚ) :
    List.Perm (rankedOf univ scores) (univ.map fun i => (i, scores i))
    ∧ List.Sorted rankKey (rankedOf univ scores)
    ∧ (rankedOf univ scores).filter (fun p => decide (p.2 = q))
        = (univ.map fun i => (i, scores i)).filter (fun p => decide (p.2 = q))
    ∧ longsOf ["A", "B", "C", "D"] scenarioScores 1 = ["A"]
    ∧ shortsOf ["A", "B", "C", "D"] scenarioScores 1 = ["D"]
    ∧ flatsOf ["A", "B", "C", "D"] scenarioScores 1 = ["B", "C"] :=
  ⟨List.perm_insertionSort rankKey _,
    List.sorted_insertionSort rankKey _,
    filter_insertionSort_rank q _,
    scenario_longs, scenario_shorts, scenario_flats⟩

theorem sum_map_eq_const {α : Type} (l : List α) (f : α → ℚ) (c : ℚ)
    (h : ∀ a ∈ l, f a = c) : (l.map f).sum = l.length * c := by
  induction l with
  | nil => simp
  | cons x xs ih =>
    rw [List.map_cons, List.sum_cons, h x (List.mem_cons_self _ _),
      ih (fun a ha => h a (List.mem_cons_of_mem _ ha)), List.length_cons]
    push_cast
    ring

/-- C3: on an executed rebalance with a nonempty combined long/short set,
the emitted order list consists of flat orders with target 0, long orders
with target (portfolio_value / num_positions) / last_price, short orders
with the same value negated, and the total absolute notional of the
emitted orders equals the portfolio value exactly. -/
theorem allocation_spec (longs shorts flats : List String)
    (lastPrice : String → ℚ) (pv : ℚ)
    (hnum : longs.length + shorts.length ≠ 0) (hpv : 0 ≤ pv)
    (hlp : ∀ i ∈ longs ++ shorts, 0 < lastPrice i) :
    executeTrades longs shorts flats lastPrice pv
      = flats.map (fun i => ⟨i, 0⟩)
        ++ longs.map (fun i =>
            ⟨i, pv / ((longs.length + shorts.length : ℕ) : ℚ) / lastPrice i⟩)
        ++ shorts.map (fun i =>
            ⟨i, -(pv / ((longs.length + shorts.length : ℕ) : ℚ) / lastPrice i)⟩)
    ∧ ((executeTrades longs shorts flats lastPrice pv).map
        (fun o => |o.target * lastPrice o.instrument|)).sum = pv := by
  have hexec : executeTrades longs shorts flats lastPrice pv
      = flats.map (fun i => ⟨i, 0⟩)
        ++ longs.map (fun i =>
            ⟨i, pv / ((longs.length + shorts.length : ℕ) : ℚ) / lastPrice i⟩)
        ++ shorts.map (fun i =>
            ⟨i, -(pv / ((longs.length + shorts.length : ℕ) : ℚ) / lastPrice i)⟩) := by
    simp only [executeTrades, if_neg hnum]
  refine ⟨hexec, ?_⟩
  have hn : ((longs.length + shorts.length : ℕ) : ℚ) ≠ 0 :=
    Nat.cast_ne_zero.mpr hnum
  have hcpp : (0:ℚ) ≤ pv / ((longs.length + shorts.length : ℕ) : ℚ) :=
    div_nonneg hpv (Nat.cast_nonneg _)
  rw [hexec, List.map_append, List.map_append, List.sum_append,
    List.sum_append, List.map_map, List.map_map, List.map_map]
  have h0 : ((flats.map ((fun o : Order => |o.target * lastPrice o.instrument|)
      ∘ (fun i => ⟨i, 0⟩))).sum) = flats.length * 0 :=
    sum_map_eq_const flats _ 0 (fun a _ => by simp [Function.comp])
  have hlong : ((longs.map ((fun o : Order => |o.target * lastPrice o.instrument|)
      ∘ (fun i =>
        ⟨i, pv / ((longs.length + shorts.length : ℕ) : ℚ) / lastPrice i⟩))).sum)
      = longs.length * (pv / ((longs.length + shorts.length : ℕ) : ℚ)) := by
    refine sum_map_eq_const longs _ _ (fun a ha => ?_)
    have hpa : lastPrice a ≠ 0 :=
      ne_of_gt (hlp a (List.mem_append_left _ ha))
    simp only [Function.comp]
    rw [div_mul_cancel₀ _ hpa]
    exact abs_of_nonneg hcpp
  have hshort : ((shorts.map ((fun o : Order => |o.target * lastPrice o.instrument|)
      ∘ (fun i =>
        ⟨i, -(pv / ((longs.length + shorts.length : ℕ) : ℚ) / lastPrice i)⟩))).sum)
      = shorts.length * (pv / ((longs.length + shorts.length : ℕ) : ℚ)) := by
    refine sum_map_eq_const shorts _ _ (fun a ha => ?_)
    have hpa : lastPrice a ≠ 0 :=
      ne_of_gt (hlp a (List.mem_append_right _ ha))
    simp only [Function.comp]
    rw [neg_mul, abs_neg, div_mul_cancel₀ _ hpa]
    exact abs_of_nonneg hcpp
  rw [h0, hlong, hshort]
  have : ((longs.length : ℚ) + (shorts.length : ℚ))
      * (pv / ((longs.length + shorts.length : ℕ) : ℚ)) = pv := by
    push_cast
    rw [mul_comm, div_mul_cancel₀]
    push_cast at hn
    exact hn
  push_cast at this ⊢
  linarith

theorem allocation_spec_witness :
    ((executeTrades ["A"] ["B"] [] (fun _ => 2) 100).map
      (fun o => |o.target * (fun _ : String => (2:ℚ)) o.instrument|)).sum
      = 100 :=
  (allocation_spec ["A"] ["B"] [] (fun _ => 2) 100 (by simp) (by norm_num)
    (fun i _ => by norm_num)).2

theorem rankedOf_map_fst_perm (univ : List String) (scores : String → ℚ) :
    List.Perm ((rankedOf univ scores).map Prod.fst) univ := by
  have h2 := (List.perm_insertionSort rankKey
    (univ.map fun i => (i, scores i))).map Prod.fst
  rwa [List.map_map, show (Prod.fst ∘ fun i => (i, scores i)) = id from rfl,
    List.map_id] at h2

theorem rankedOf_length (univ : List String) (scores : String → ℚ) :
    (rankedOf univ scores).length = univ.length := by
  rw [rankedOf, rankInstruments,
    (List.perm_insertionSort rankKey _).length_eq, List.length_map]

theorem map_instrument_mk (l : List String) (f : String → ℚ) :
    (l.map (fun i => (⟨i, f i⟩ : Order))).map Order.instrument = l := by
  induction l with
  | nil => rfl
  | cons x xs ih => simp [ih]

/-- C9: under a duplicate-free universe, a positive hold count K with
2K at most the universe size, a positive portfolio value and positive last
prices, the long, short and flat sets are pairwise disjoint, together cover
the universe, exactly one order is emitted per universe instrument (the
emitted instruments are a permutation of the universe), and every flat
order targets 0, every long order a positive quantity and every short
order a negative quantity. -/
theorem rebalance_partition (univ : List String) (scores : String → ℚ)
    (K : ℕ) (lastPrice : String → ℚ) (pv : ℚ)
    (hnd : univ.Nodup) (hK : 1 ≤ K) (h2K : 2 * K ≤ univ.length)
    (hpv : 0 < pv) (hlp : ∀ i ∈ univ, 0 < lastPrice i) :
    (longsOf univ scores K).Disjoint (shortsOf univ scores K)
    ∧ (longsOf univ scores K).Disjoint (flatsOf univ scores K)
    ∧ (shortsOf univ scores K).Disjoint (flatsOf univ scores K)
    ∧ (∀ i, i ∈ univ ↔
        i ∈ longsOf univ scores K ∨ i ∈ shortsOf univ scores K
          ∨ i ∈ flatsOf univ scores K)
    ∧ List.Perm ((rebalanceOrders univ scores K lastPrice pv).map
        Order.instrument) univ
    ∧ (∀ o ∈ rebalanceOrders univ scores K lastPrice pv,
        (o.instrument ∈ flatsOf univ scores K → o.target = 0)
        ∧ (o.instrument ∈ longsOf univ scores K → 0 < o.target)
        ∧ (o.instrument ∈ shortsOf univ scores K → o.target < 0)) := by
  have hperm : List.Perm ((rankedOf univ scores).map Prod.fst) univ :=
    rankedOf_map_fst_perm univ scores
  have hLnd : ((rankedOf univ scores).map Prod.fst).Nodup :=
    hperm.nodup_iff.mpr hnd
  have hlen : ((rankedOf univ scores).map Prod.fst).length = univ.length := by
    rw [List.length_map, rankedOf_length]
  have hKne : K ≠ 0 := by omega
  have hlongs : longsOf univ scores K
      = ((rankedOf univ scores).map Prod.fst).take K := by
    rw [longsOf, List.map_take]
  have hshorts : shortsOf univ scores K
      = ((rankedOf univ scores).map Prod.fst).drop
          (((rankedOf univ scores).map Prod.fst).length - K) := by
    rw [shortsOf, pySliceLast, if_neg hKne, List.map_drop, List.length_map]
  have hdisj0 : List.Disjoint (((rankedOf univ scores).map Prod.fst).take K)
      (((rankedOf univ scores).map Prod.fst).drop K) :=
    List.disjoint_of_nodup_append
      (by rw [List.take_append_drop]; exact hLnd)
  have hsub : ((rankedOf univ scores).map Prod.fst).drop
      (((rankedOf univ scores).map Prod.fst).length - K)
      ⊆ ((rankedOf univ scores).map Prod.fst).drop K := by
    have hdd : ((rankedOf univ scores).map Prod.fst).drop
        (((rankedOf univ scores).map Prod.fst).length - K)
        = (((rankedOf univ scores).map Prod.fst).drop K).drop
            (((rankedOf univ scores).map Prod.fst).length - K - K) := by
      rw [List.drop_drop]
      congr 1
      omega
    rw [hdd]
    exact List.drop_subset _ _
  have hdisjLS : (longsOf univ scores K).Disjoint (shortsOf univ scores K) := by
    rw [hlongs, hshorts]
    exact fun a ha hb => hdisj0 ha (hsub hb)
  have hflatsmem : ∀ i ∈ flatsOf univ scores K,
      i ∉ longsOf univ scores K ∧ i ∉ shortsOf univ scores K := by
    intro i hi
    exact of_decide_eq_true (List.mem_filter.mp hi).2
  have hdisjLF : (longsOf univ scores K).Disjoint (flatsOf univ scores K) :=
    fun a ha hb => (hflatsmem a hb).1 ha
  have hdisjSF : (shortsOf univ scores K).Disjoint (flatsOf univ scores K) :=
    fun a ha hb => (hflatsmem a hb).2 ha
  have hsubL : longsOf univ scores K ⊆ univ := by
    rw [hlongs]
    exact fun a ha => hperm.subset (List.take_subset _ _ ha)
  have hsubS : shortsOf univ scores K ⊆ univ := by
    rw [hshorts]
    exact fun a ha => hperm.subset (List.drop_subset _ _ ha)
  have hcover : ∀ i, i ∈ univ ↔
      i ∈ longsOf univ scores K ∨ i ∈ shortsOf univ scores K
        ∨ i ∈ flatsOf univ scores K := by
    intro i
    constructor
    · intro hu
      by_cases hl : i ∈ longsOf univ scores K
      · exact Or.inl hl
      by_cases hs : i ∈ shortsOf univ scores K
      · exact Or.inr (Or.inl hs)
      exact Or.inr (Or.inr (List.mem_filter.mpr ⟨hu, decide_eq_true ⟨hl, hs⟩⟩))
    · rintro (h | h | h)
      · exact hsubL h
      · exact hsubS h
      · exact List.mem_of_mem_filter h
  have hlenL : (longsOf univ scores K).length = K := by
    rw [hlongs, List.length_take, hlen]
    omega
  have hlenS : (shortsOf univ scores K).length = K := by
    rw [hshorts, List.length_drop, hlen]
    omega
  have hnum : (longsOf univ scores K).length + (shortsOf univ scores K).length
      ≠ 0 := by
    rw [hlenL, hlenS]
    omega
  have horders : rebalanceOrders univ scores K lastPrice pv
      = (flatsOf univ scores K).map (fun i => ⟨i, 0⟩)
        ++ (longsOf univ scores K).map (fun i =>
            ⟨i, pv / (((longsOf univ scores K).length
              + (shortsOf univ scores K).length : ℕ) : ℚ) / lastPrice i⟩)
        ++ (shortsOf univ scores K).map (fun i =>
            ⟨i, -(pv / (((longsOf univ scores K).length
              + (shortsOf univ scores K).length : ℕ) : ℚ) / lastPrice i)⟩) := by
    simp only [rebalanceOrders, executeTrades, if_neg hnum]
  have hmap : (rebalanceOrders univ scores K lastPrice pv).map Order.instrument
      = flatsOf univ scores K ++ longsOf univ scores K
          ++ shortsOf univ scores K := by
    rw [horders, List.map_append, List.map_append,
      map_instrument_mk _ (fun _ => 0), map_instrument_mk, map_instrument_mk]
  have hndL : (longsOf univ scores K).Nodup := by
    rw [hlongs]
    exact hLnd.sublist (List.take_sublist _ _)
  have hndS : (shortsOf univ scores K).Nodup := by
    rw [hshorts]
    exact hLnd.sublist (List.drop_sublist _ _)
  have hpermQ : List.Perm
      (univ.filter (fun i => decide (i ∈ longsOf univ scores K
        ∨ i ∈ shortsOf univ scores K)))
      (longsOf univ scores K ++ shortsOf univ scores K) := by
    rw [List.perm_ext_iff_of_nodup (hnd.filter _) (hndL.append hndS hdisjLS)]
    intro a
    simp only [List.mem_filter, List.mem_append, decide_eq_true_eq]
    constructor
    · exact fun h => h.2
    · intro h
      refine ⟨?_, h⟩
      rcases h with h | h
      · exact hsubL h
      · exact hsubS h
  have hflats_eq : flatsOf univ scores K
      = univ.filter (fun i => !(decide (i ∈ longsOf univ scores K
          ∨ i ∈ shortsOf univ scores K))) := by
    rw [flatsOf]
    refine List.filter_congr (fun a _ => ?_)
    by_cases h1 : a ∈ longsOf univ scores K <;>
      by_cases h2 : a ∈ shortsOf univ scores K <;> simp [h1, h2]
  have hpermU : List.Perm ((rebalanceOrders univ scores K lastPrice pv).map
      Order.instrument) univ := by
    rw [hmap, List.append_assoc]
    refine List.Perm.trans
      (List.Perm.append (show List.Perm (flatsOf univ scores K)
        (univ.filter (fun i => !(decide (i ∈ longsOf univ scores K
          ∨ i ∈ shortsOf univ scores K)))) by rw [hflats_eq]) hpermQ.symm) ?_
    refine List.Perm.trans List.perm_append_comm ?_
    exact List.filter_append_perm _ univ
  refine ⟨hdisjLS, hdisjLF, hdisjSF, hcover, hpermU, ?_⟩
  intro o ho
  rw [horders] at ho
  have hcpp : 0 < pv / (((longsOf univ scores K).length
      + (shortsOf univ scores K).length : ℕ) : ℚ) := by
    apply div_pos hpv
    exact_mod_cast Nat.pos_of_ne_zero hnum
  rcases List.mem_append.mp ho with ho | ho
  · rcases List.mem_append.mp ho with ho | ho
    · obtain ⟨i, hi, rfl⟩ := List.mem_map.mp ho
      exact ⟨fun _ => rfl,
        fun hl => absurd hi (fun hf => (hflatsmem i hf).1 hl),
        fun hs => absurd hi (fun hf => (hflatsmem i hf).2 hs)⟩
    · obtain ⟨i, hi, rfl⟩ := List.mem_map.mp ho
      refine ⟨fun hf => absurd hi (hflatsmem i hf).1, fun _ => ?_,
        fun hs => absurd hs (fun hs => hdisjLS hi hs)⟩
      exact div_pos hcpp (hlp i (hsubL hi))
  · obtain ⟨i, hi, rfl⟩ := List.mem_map.mp ho
    refine ⟨fun hf => absurd hi (hflatsmem i hf).2,
      fun hl => absurd hi (fun hs => hdisjLS hl hs), fun _ => ?_⟩
    have := div_pos hcpp (hlp i (hsubS hi))
    simpa using neg_neg_of_pos this

theorem rebalance_partition_witness :
    List.Perm ((rebalanceOrders ["A", "B", "C", "D"] scenarioScores 1
      (fun _ => 2) 100).map Order.instrument) ["A", "B", "C", "D"] :=
  (rebalance_partition ["A", "B", "C", "D"] scenarioScores 1 (fun _ => 2) 100
    (by decide) (by decide) (by decide) (by norm_num)
    (fun i _ => by norm_num)).2.2.2.2.1

theorem step_not_fired (cfg : StratConfig) (pv : ℚ) (s : StratState) (md : Tick)
    (h : (if cfg.instrument_list.head? = some md.instrument
      then s.rebalance_counter + 1 else s.rebalance_counter)
      < cfg.rebalance_period) :
    (on_marketdatafeed cfg pv s md).fired = false
    ∧ (on_marketdatafeed cfg pv s md).orders = []
    ∧ (on_marketdatafeed cfg pv s md).state.rebalance_counter
        = (if cfg.instrument_list.head? = some md.instrument
          then s.rebalance_counter + 1 else s.rebalance_counter) := by
  simp only [on_marketdatafeed]
  rw [if_pos h]
  exact ⟨rfl, rfl, rfl⟩

theorem step_fired (cfg : StratConfig) (pv : ℚ) (s : StratState) (md : Tick)
    (h : ¬ (if cfg.instrument_list.head? = some md.instrument
      then s.rebalance_counter + 1 else s.rebalance_counter)
      < cfg.rebalance_period) :
    (on_marketdatafeed cfg pv s md).fired = true
    ∧ (on_marketdatafeed cfg pv s md).state.rebalance_counter = 0 := by
  simp only [on_marketdatafeed]
  rw [if_neg h]
  split_ifs <;> exact ⟨rfl, rfl⟩

/-- C7: if on some tick any universe instrument's (post-append) price
history is shorter than the lookback period, the handler emits no orders,
and if the rebalance trigger fired the counter is reset to 0, so the
engine waits a full further cycle; conversely orders are only ever emitted
when every universe instrument's history has reached the lookback
length. -/
theorem accumulating_guard (cfg : StratConfig) (pv : ℚ) (s : StratState)
    (md : Tick) :
    ((∃ i ∈ cfg.instrument_list,
        ((on_marketdatafeed cfg pv s md).state.historical_data i).length
          < cfg.lookback_period) →
      (on_marketdatafeed cfg pv s md).orders = []
      ∧ ((on_marketdatafeed cfg pv s md).fired = true →
          (on_marketdatafeed cfg pv s md).state.rebalance_counter = 0))
    ∧ ((on_marketdatafeed cfg pv s md).orders ≠ [] →
        ∀ i ∈ cfg.instrument_list,
          cfg.lookback_period
            ≤ ((on_marketdatafeed cfg pv s md).state.historical_data i).length) := by
  simp only [on_marketdatafeed]
  by_cases hlt : (if cfg.instrument_list.head? = some md.instrument
      then s.rebalance_counter + 1 else s.rebalance_counter)
      < cfg.rebalance_period
  · rw [if_pos hlt]
    exact ⟨fun _ => ⟨rfl, fun hf => absurd hf (by simp)⟩,
      fun ho => absurd rfl ho⟩
  · rw [if_neg hlt]
    by_cases hany : (cfg.instrument_list.any fun i =>
        decide ((appendTick cfg s.historical_data md i).length
          < cfg.lookback_period)) = true
    · rw [if_pos hany]
      exact ⟨fun _ => ⟨rfl, fun _ => rfl⟩, fun ho => absurd rfl ho⟩
    · rw [if_neg hany]
      simp only [List.any_eq_true, decide_eq_true_eq] at hany
      push_neg at hany
      constructor
      · rintro ⟨i, hi, hlen⟩
        exact absurd hlen (by simpa using hany i hi)
      · intro _ i hi
        simpa using hany i hi

theorem accumulating_guard_witness :
    (on_marketdatafeed ⟨["SPY"], 120, 1, 2⟩ 1000 initState ⟨"SPY", 100⟩).orders
      = []
    ∧ ((on_marketdatafeed ⟨["SPY"], 120, 1, 2⟩ 1000 initState
        ⟨"SPY", 100⟩).fired = true →
      (on_marketdatafeed ⟨["SPY"], 120, 1, 2⟩ 1000 initState
        ⟨"SPY", 100⟩).state.rebalance_counter = 0) :=
  (accumulating_guard ⟨["SPY"], 120, 1, 2⟩ 1000 initState ⟨"SPY", 100⟩).1
    ⟨"SPY", by simp, by simp [on_marketdatafeed, appendTick, initState]⟩

theorem mod_succ_of_lt {rc p : ℕ} (h : rc % p + 1 < p) :
    (rc + 1) % p = rc % p + 1 := by
  have h1 : 1 % p = 1 := Nat.mod_eq_of_lt (by omega)
  rw [Nat.add_mod, h1, Nat.mod_eq_of_lt h]

theorem mod_succ_of_eq {rc p : ℕ} (h : rc % p + 1 = p) : (rc + 1) % p = 0 := by
  by_cases hp1 : p = 1
  · subst hp1
    exact Nat.mod_one _
  · have h1 : 1 % p = 1 := Nat.mod_eq_of_lt (by omega)
    rw [Nat.add_mod, h1, h, Nat.mod_self]

theorem refCount_cons (cfg : StratConfig) (md : Tick) (rest : List Tick) :
    refCount cfg (md :: rest)
      = (if isRefTick cfg md then 1 else 0) + refCount cfg rest := by
  rw [refCount, refCount, List.filter_cons]
  by_cases h : isRefTick cfg md <;> simp [h] <;> omega

theorem runTrace_spec (cfg : StratConfig) (pv : ℚ)
    (hp : 1 ≤ cfg.rebalance_period) :
    ∀ (ts : List Tick) (s : StratState) (rc : ℕ),
      s.rebalance_counter = rc % cfg.rebalance_period →
      (runTrace cfg pv s ts).2 = expectedFires cfg ts rc
      ∧ (runTrace cfg pv s ts).1.rebalance_counter
          = (rc + refCount cfg ts) % cfg.rebalance_period := by
  intro ts
  induction ts with
  | nil =>
    intro s rc hs
    exact ⟨rfl, by simpa [refCount] using hs⟩
  | cons md rest ih =>
    intro s rc hs
    have hmodlt : rc % cfg.rebalance_period < cfg.rebalance_period :=
      Nat.mod_lt _ (by omega)
    by_cases href : cfg.instrument_list.head? = some md.instrument
    · have hcnt : (if cfg.instrument_list.head? = some md.instrument
          then s.rebalance_counter + 1 else s.rebalance_counter)
          = rc % cfg.rebalance_period + 1 := by
        rw [if_pos href, hs]
      by_cases hlt : rc % cfg.rebalance_period + 1 < cfg.rebalance_period
      · obtain ⟨hf, _, hc⟩ := step_not_fired cfg pv s md (by rw [hcnt]; exact hlt)
        have hmod : (rc + 1) % cfg.rebalance_period
            = rc % cfg.rebalance_period + 1 := mod_succ_of_lt hlt
        obtain ⟨ihf, ihc⟩ := ih (on_marketdatafeed cfg pv s md).state (rc + 1)
          (by rw [hc, hcnt, hmod])
        constructor
        · show (on_marketdatafeed cfg pv s md).fired
            :: (runTrace cfg pv (on_marketdatafeed cfg pv s md).state rest).2
            = expectedFires cfg (md :: rest) rc
          rw [expectedFires, hf, ihf]
          simp only [isRefTick, href, decide_eq_true_eq]
          have : ¬ (rc + 1) % cfg.rebalance_period = 0 := by omega
          simp [this]
        · show (runTrace cfg pv (on_marketdatafeed cfg pv s md).state
              rest).1.rebalance_counter = _
          rw [ihc, refCount_cons]
          simp only [isRefTick, href]
          norm_num
          congr 1
          omega
      · have heq : rc % cfg.rebalance_period + 1 = cfg.rebalance_period := by
          omega
        obtain ⟨hf, hc⟩ := step_fired cfg pv s md (by rw [hcnt]; omega)
        have hmod : (rc + 1) % cfg.rebalance_period = 0 := mod_succ_of_eq heq
        obtain ⟨ihf, ihc⟩ := ih (on_marketdatafeed cfg pv s md).state (rc + 1)
          (by rw [hc, hmod])
        constructor
        · show (on_marketdatafeed cfg pv s md).fired
            :: (runTrace cfg pv (on_marketdatafeed cfg pv s md).state rest).2
            = expectedFires cfg (md :: rest) rc
          rw [expectedFires, hf, ihf]
          simp [isRefTick, href, hmod]
        · show (runTrace cfg pv (on_marketdatafeed cfg pv s md).state
              rest).1.rebalance_counter = _
          rw [ihc, refCount_cons]
          simp only [isRefTick, href]
          norm_num
          congr 1
          omega
    · have hcnt : (if cfg.instrument_list.head? = some md.instrument
          then s.rebalance_counter + 1 else s.rebalance_counter)
          = rc % cfg.rebalance_period := by
        rw [if_neg href, hs]
      obtain ⟨hf, _, hc⟩ := step_not_fired cfg pv s md (by rw [hcnt]; exact hmodlt)
      obtain ⟨ihf, ihc⟩ := ih (on_marketdatafeed cfg pv s md).state rc
        (by rw [hc, hcnt])
      constructor
      · show (on_marketdatafeed cfg pv s md).fired
          :: (runTrace cfg pv (on_marketdatafeed cfg pv s md).state rest).2
          = expectedFires cfg (md :: rest) rc
        rw [expectedFires, hf, ihf]
        simp [isRefTick, href]
      · show (runTrace cfg pv (on_marketdatafeed cfg pv s md).state
            rest).1.rebalance_counter = _
        rw [ihc, refCount_cons]
        simp [isRefTick, href]

theorem count_expectedFires (cfg : StratConfig)
    (hp : 1 ≤ cfg.rebalance_period) :
    ∀ (ts : List Tick) (rc : ℕ),
      (expectedFires cfg ts rc).count true
        = (rc + refCount cfg ts) / cfg.rebalance_period
          - rc / cfg.rebalance_period := by
  intro ts
  induction ts with
  | nil =>
    intro rc
    simp [expectedFires, refCount]
  | cons md rest ih =>
    intro rc
    by_cases href : isRefTick cfg md = true
    · have hmono : (rc + 1) / cfg.rebalance_period
          ≤ (rc + 1 + refCount cfg rest) / cfg.rebalance_period :=
        Nat.div_le_div_right (by omega)
      have hsucc : (rc + 1) / cfg.rebalance_period
          = rc / cfg.rebalance_period
            + if cfg.rebalance_period ∣ rc + 1 then 1 else 0 :=
        Nat.succ_div rc cfg.rebalance_period
      by_cases hz : (rc + 1) % cfg.rebalance_period = 0
      · have hexp : expectedFires cfg (md :: rest) rc
            = true :: expectedFires cfg rest (rc + 1) := by
          rw [expectedFires]
          simp [href, hz]
        rw [hexp, List.count_cons, ih (rc + 1), refCount_cons]
        rw [if_pos (Nat.dvd_iff_mod_eq_zero.mpr hz)] at hsucc
        have harith : rc + (1 + refCount cfg rest)
            = rc + 1 + refCount cfg rest := by omega
        simp [href, harith] <;> omega
      · have hexp : expectedFires cfg (md :: rest) rc
            = false :: expectedFires cfg rest (rc + 1) := by
          rw [expectedFires]
          simp [href, hz]
        rw [hexp, List.count_cons, ih (rc + 1), refCount_cons]
        rw [if_neg (fun hd => hz (Nat.dvd_iff_mod_eq_zero.mp hd))] at hsucc
        have harith : rc + (1 + refCount cfg rest)
            = rc + 1 + refCount cfg rest := by omega
        simp [href, harith] <;> omega
    · have hexp : expectedFires cfg (md :: rest) rc
          = false :: expectedFires cfg rest rc := by
        rw [expectedFires]
        simp [href]
      rw [hexp, List.count_cons, ih rc, refCount_cons]
      simp [href] <;> omega

theorem expectedFires_only_ref (cfg : StratConfig) :
    ∀ (ts : List Tick) (rc t : ℕ),
      (expectedFires cfg ts rc).getD t false = true →
      isRefTick cfg (ts.getD t ⟨"", 0⟩) = true := by
  intro ts
  induction ts with
  | nil =>
    intro rc t ht
    simp [expectedFires] at ht
  | cons md rest ih =>
    intro rc t ht
    cases t with
    | zero =>
      rw [expectedFires, List.getD_cons_zero] at ht
      rw [List.getD_cons_zero]
      simp only [Bool.and_eq_true] at ht
      exact ht.1
    | succ n =>
      rw [expectedFires, List.getD_cons_succ] at ht
      rw [List.getD_cons_succ]
      exact ih _ n ht

/-- C8: from a fresh start, the rebalance cycle fires exactly on those
ticks of the designated reference instrument (the first universe member)
whose cumulative reference-tick count is a multiple of the rebalance
period; in particular the number of fired cycles is the number of
reference ticks divided by the period, and a cycle never fires on a tick
of any other instrument. -/
theorem trigger_schedule (cfg : StratConfig) (pv : ℚ) (ts : List Tick)
    (hp : 1 ≤ cfg.rebalance_period) :
    (runTrace cfg pv initState ts).2 = expectedFires cfg ts 0
    ∧ (runTrace cfg pv initState ts).2.count true
        = refCount cfg ts / cfg.rebalance_period
    ∧ ∀ t : ℕ, (runTrace cfg pv initState ts).2.getD t false = true →
        isRefTick cfg (ts.getD t ⟨"", 0⟩) = true := by
  obtain ⟨hf, _⟩ := runTrace_spec cfg pv hp ts initState 0 (by simp [initState])
  refine ⟨hf, ?_, ?_⟩
  · rw [hf, count_expectedFires cfg hp ts 0]
    simp
  · intro t ht
    rw [hf] at ht
    exact expectedFires_only_ref cfg ts 0 t ht

theorem trigger_schedule_witness :
    (runTrace ⟨["SPY", "QQQ"], 120, 2, 1⟩ 100 initState
      [⟨"SPY", 1⟩, ⟨"QQQ", 1⟩, ⟨"SPY", 2⟩, ⟨"QQQ", 2⟩]).2.count true
      = refCount ⟨["SPY", "QQQ"], 120, 2, 1⟩
          [⟨"SPY", 1⟩, ⟨"QQQ", 1⟩, ⟨"SPY", 2⟩, ⟨"QQQ", 2⟩] / 2 :=
  (trigger_schedule ⟨["SPY", "QQQ"], 120, 2, 1⟩ 100
    [⟨"SPY", 1⟩, ⟨"QQQ", 1⟩, ⟨"SPY", 2⟩, ⟨"QQQ", 2⟩] (by norm_num)).2.1

/-- C10: a market-data tick for an instrument outside the configured
universe leaves the engine state (price histories and rebalance counter)
unchanged, emits no orders and never fires the rebalance cycle, in any
state reachable from a fresh start. -/
theorem frame_nonuniverse (cfg : StratConfig) (pv : ℚ) (ts : List Tick)
    (md : Tick) (hp : 1 ≤ cfg.rebalance_period)
    (hmd : md.instrument ∉ cfg.instrument_list) :
    on_marketdatafeed cfg pv (runTrace cfg pv initState ts).1 md
      = ⟨(runTrace cfg pv initState ts).1, [], false⟩ := by
  obtain ⟨_, hc⟩ := runTrace_spec cfg pv hp ts initState 0 (by simp [initState])
  have hlt : (runTrace cfg pv initState ts).1.rebalance_counter
      < cfg.rebalance_period := by
    rw [hc]
    exact Nat.mod_lt _ (by omega)
  have hnotref : ¬ cfg.instrument_list.head? = some md.instrument := by
    intro h
    apply hmd
    cases hl : cfg.instrument_list with
    | nil => rw [hl] at h; exact absurd h (by simp)
    | cons a l =>
      rw [hl] at h
      simp only [List.head?_cons, Option.some.injEq] at h
      rw [← h]
      exact List.mem_cons_self a l
  simp only [on_marketdatafeed, appendTick, if_neg hmd, if_neg hnotref,
    if_pos hlt]

theorem frame_nonuniverse_witness :
    on_marketdatafeed ⟨["SPY"], 120, 20, 2⟩ 1
      (runTrace ⟨["SPY"], 120, 20, 2⟩ 1 initState []).1 ⟨"XYZ", 5⟩
      = ⟨(runTrace ⟨["SPY"], 120, 20, 2⟩ 1 initState []).1, [], false⟩ :=
  frame_nonuniverse ⟨["SPY"], 120, 20, 2⟩ 1 [] ⟨"XYZ", 5⟩ (by norm_num)
    (by simp)

theorem max_drawdown_spec_witness :
    calculate_max_drawdown [(1:ℚ)/10] ≤ 0
    ∧ List.Chain' (· ≤ ·) (cumulativeReturns [(1:ℚ)/10]) :=
  ⟨(max_drawdown_spec [(1:ℚ)/10] (by simp)).1,
    (max_drawdown_spec [(1:ℚ)/10] (by simp)).2
      (by intro r hr; simp only [List.mem_singleton] at hr; rw [hr]; norm_num)
      (by norm_num [calculate_max_drawdown, cumulativeReturns, cumprodAux,
        expandingMax, expandingMaxAux, seriesMin, List.zipWith, List.foldl])⟩

end MomentumStrategy
